import Mathlib

/-!
# Byte pair encoding (BPE) subword tokenizer — verification development

Shallow embedding of the BPE vocabulary builder and segmenter from
`chapter_natural-language-processing-pretraining/subword-embedding.ipynb`.

Python strings are modelled as `List Char`; the word-frequency dictionary
(`token_freqs`) and the ephemeral pair-frequency dictionary are modelled as
insertion-ordered association lists, mirroring the insertion-order semantics
of Python `dict` / `collections.defaultdict` (assignment to an existing key
updates the value in place and keeps the key's position; a new key is
appended at the end).  `max(pairs, key=pairs.get)` returns the first key, in
insertion order, attaining the maximal value, and raises on an empty dict,
which is modelled by an `Option` result.
-/

namespace BPE

/-- A Python string: a list of characters. -/
abbrev Str := List Char

/-- Convenience conversion from a Lean string literal. -/
def strL (s : String) : Str := s.toList

/-- The unknown-token marker `'[UNK]'`. -/
def unkTok : Str := strL "[UNK]"

/-- The initial vocabulary: the 26 lowercase letters, the end-of-word marker
`'_'` and the unknown marker `'[UNK]'` (the module-level `symbols` list). -/
def symbols0 : List Str :=
  [strL "a", strL "b", strL "c", strL "d", strL "e", strL "f", strL "g",
   strL "h", strL "i", strL "j", strL "k", strL "l", strL "m", strL "n",
   strL "o", strL "p", strL "q", strL "r", strL "s", strL "t", strL "u",
   strL "v", strL "w", strL "x", strL "y", strL "z", strL "_", strL "[UNK]"]

/-- Auxiliary for `splitSpace`: `acc` is the reversed current chunk. -/
def splitSpaceAux : List Char → List Char → List Str
  | [], acc => if acc = [] then [] else [acc.reverse]
  | c :: cs, acc =>
    if c = ' ' then
      if acc = [] then splitSpaceAux cs []
      else acc.reverse :: splitSpaceAux cs []
    else splitSpaceAux cs (c :: acc)

/-- Python `token.split()` restricted to the space character: splits on runs
of spaces and drops empty chunks. -/
def splitSpace (t : Str) : List Str := splitSpaceAux t []

/-- Python `' '.join(xs)`. -/
def joinSpace : List Str → Str
  | [] => []
  | [s] => s
  | s :: rest => s ++ ' ' :: joinSpace rest

/-- Python `dict` assignment `d[k] = v` on an insertion-ordered association
list: an existing key keeps its position and gets the new value, a new key is
appended at the end. -/
def dictInsert (k : Str) (v : Nat) : List (Str × Nat) → List (Str × Nat)
  | [] => [(k, v)]
  | (k', v') :: rest =>
    if k' = k then (k, v) :: rest else (k', v') :: dictInsert k v rest

/-- `collections.defaultdict(int)` update `pairs[p] += f` on an
insertion-ordered association list. -/
def addPair (p : Str × Str) (f : Nat) :
    List ((Str × Str) × Nat) → List ((Str × Str) × Nat)
  | [] => [(p, f)]
  | (q, v) :: rest =>
    if q = p then (q, v + f) :: rest else (q, v) :: addPair p f rest

/-- The list of ordered pairs of consecutive symbols of a word
(`symbols[i], symbols[i+1]` for `i in range(len(symbols) - 1)`). -/
def adjPairs (ss : List Str) : List (Str × Str) := ss.zip ss.tail

/-- The pair-frequency dictionary built by the loop of `get_max_freq_pair`:
for every key of `token_freqs`, split it into symbols and add the word's
frequency to every consecutive pair. -/
def pairStats (tf : List (Str × Nat)) : List ((Str × Str) × Nat) :=
  tf.foldl
    (fun acc e => (adjPairs (splitSpace e.1)).foldl (fun a p => addPair p e.2 a) acc)
    []

/-- Python `max(pairs, key=pairs.get)`: the first key in iteration
(= insertion) order attaining the maximal value; `none` on an empty dict
(Python raises `ValueError`). -/
def maxByValue : List ((Str × Str) × Nat) → Option (Str × Str)
  | [] => none
  | (p, v) :: rest =>
    some (rest.foldl (fun b e => if b.2 < e.2 then e else b) (p, v)).1

/-- `get_max_freq_pair(token_freqs)` from the notebook. -/
def get_max_freq_pair (tf : List (Str × Nat)) : Option (Str × Str) :=
  maxByValue (pairStats tf)

/-- Worker for `replaceList`.  `skip` counts characters still to be dropped
after a replacement (the matched pattern's characters past the first one), so
that scanning resumes after the replaced occurrence, making replacement
non-overlapping exactly as in Python. -/
def replaceAux (pat rep : Str) : Str → Nat → Str
  | [], _ => []
  | _ :: cs, skip + 1 => replaceAux pat rep cs skip
  | c :: cs, 0 =>
    if pat ≠ [] ∧ pat.isPrefixOf (c :: cs) then
      rep ++ replaceAux pat rep cs (pat.length - 1)
    else
      c :: replaceAux pat rep cs 0

/-- Python `str.replace(pat, rep)`: leftmost, non-overlapping replacement.
In the source `pat` is always `'a' + ' ' + 'b'`, hence nonempty; the
`pat ≠ []` guard only serves totality. -/
def replaceList (pat rep s : Str) : Str := replaceAux pat rep s 0

/-- `merge_symbols(max_freq_pair, token_freqs, symbols)` from the notebook:
appends `''.join(max_freq_pair)` to the vocabulary and rebuilds the word
frequency dictionary with every occurrence of the substring `'a b'` replaced
by `'ab'` in each key (`token.replace(' '.join(pair), ''.join(pair))`).
Returns the pair (new token_freqs, new symbols). -/
def merge_symbols (p : Str × Str) (tf : List (Str × Nat)) (symbols : List Str) :
    List (Str × Nat) × List Str :=
  (tf.foldl
     (fun acc e =>
       dictInsert (replaceList (p.1 ++ ' ' :: p.2) (p.1 ++ p.2) e.1) e.2 acc)
     [],
   symbols ++ [p.1 ++ p.2])

/-- Construction of `token_freqs` from `raw_token_freqs`:
`token_freqs[' '.join(list(token))] = raw_token_freqs[token]`. -/
def initTokenFreqs (raw : List (Str × Nat)) : List (Str × Nat) :=
  raw.foldl (fun acc e => dictInsert (joinSpace (e.1.map (fun c => [c]))) e.2 acc) []

/-- The training loop `for i in range(num_merges)` of the notebook, recording
the selected pairs.  `none` models the `ValueError` that
`get_max_freq_pair` raises when no pair exists. -/
def trainN : Nat → List (Str × Nat) → List Str →
    Option (List (Str × Str) × List (Str × Nat) × List Str)
  | 0, tf, v => some ([], tf, v)
  | n + 1, tf, v =>
    match get_max_freq_pair tf with
    | none => none
    | some p =>
      let r := merge_symbols p tf v
      (trainN n r.1 r.2).map (fun x => (p :: x.1, x.2.1, x.2.2))

/-- Python slice `token[start:end]`. -/
def slice (t : Str) (s e : Nat) : Str := (t.drop s).take (e - s)

/-- The per-token loop of `segment_BPE`, including the trailing
`if start < len(token): cur_output.append('[UNK]')`.  `start`/`e` are the
scan and candidate end positions of the source. -/
def segToken (token : Str) (symbols : List Str) (start e : Nat) : List Str :=
  if start < token.length ∧ start < e then
    if slice token start e ∈ symbols then
      slice token start e :: segToken token symbols e token.length
    else
      segToken token symbols start (e - 1)
  else
    if start < token.length then [unkTok] else []
termination_by (token.length - start, e)
decreasing_by
  · apply Prod.Lex.left
    omega
  · apply Prod.Lex.right
    omega

/-- Fuel-indexed variant of the `segment_BPE` loop, used to reason about
termination: one unit of fuel per loop iteration. -/
def segTokenFuel : Nat → Str → List Str → Nat → Nat → List Str
  | 0, _, _, _, _ => []
  | fuel + 1, token, symbols, start, e =>
    if start < token.length ∧ start < e then
      if slice token start e ∈ symbols then
        slice token start e :: segTokenFuel fuel token symbols e token.length
      else
        segTokenFuel fuel token symbols start (e - 1)
    else
      if start < token.length then [unkTok] else []

/-- `segment_BPE(tokens, symbols)` from the notebook: each token is segmented
by the greedy longest-match loop and the output symbols are joined by
spaces. -/
def segment_BPE (tokens : List Str) (symbols : List Str) : List Str :=
  tokens.map (fun t => joinSpace (segToken t symbols 0 t.length))

/-- Sum of the values of a word-frequency dictionary. -/
def sumVals (tf : List (Str × Nat)) : Nat := (tf.map (·.2)).sum

/-- Accumulated frequency of a pair in the pair-frequency dictionary
(0 when absent, as for `defaultdict(int)`). -/
def lookupD (l : List ((Str × Str) × Nat)) (p : Str × Str) : Nat :=
  match l with
  | [] => 0
  | (q, v) :: rest => if q = p then v else lookupD rest p

/-- Concatenation of a list of symbols (delimiters removed). -/
def concatL (l : List Str) : Str := l.foldr (· ++ ·) []

/-- Number of adjacent occurrences of the ordered pair `p` among the symbols
of the key `t`. -/
def countAdj (p : Str × Str) (t : Str) : Nat := (adjPairs (splitSpace t)).count p

/-- The demo corpus `raw_token_freqs` of the notebook. -/
def raw_token_freqs : List (Str × Nat) :=
  [(strL "fast_", 4), (strL "faster_", 3), (strL "tall_", 5), (strL "taller_", 4)]

/-- The merge pairs the notebook's training run prints (`merge #1` … `merge #10`). -/
def demoMergePairs : List (Str × Str) :=
  [(strL "t", strL "a"), (strL "ta", strL "l"), (strL "tal", strL "l"),
   (strL "f", strL "a"), (strL "fa", strL "s"), (strL "fas", strL "t"),
   (strL "e", strL "r"), (strL "er", strL "_"), (strL "tall", strL "_"),
   (strL "fast", strL "_")]

/-- The word-frequency table after the notebook's 10 merges. -/
def demoTokenFreqs : List (Str × Nat) :=
  [(strL "fast_", 4), (strL "fast er_", 3), (strL "tall_", 5), (strL "tall er_", 4)]

/-- The vocabulary after the notebook's 10 merges. -/
def demoVocab : List Str := symbols0 ++ demoMergePairs.map (fun p => p.1 ++ p.2)

/-- Modelled from the spec (merge application, §4.3): replace every
occurrence of the exact *adjacent symbol pair* (a, b) — at symbol level,
leftmost first, non-overlapping — by the single merged symbol `a ++ b`,
leaving all other symbols untouched.  This is the reference point the
string-level `merge_symbols` is compared against. -/
def mergeAdjacent (a b : Str) : List Str → List Str
  | [] => []
  | [s] => [s]
  | s :: t :: rest =>
    if s = a ∧ t = b then (a ++ b) :: mergeAdjacent a b rest
    else s :: mergeAdjacent a b (t :: rest)

/-- Alignment condition on a symbol sequence: the pattern symbols a, b only
abut adjacent symbols (u, v) when (u, v) is exactly (a, b); that is, no
proper suffix of a symbol reads like `a` while the next symbol starts like
`b`.  Under this condition the string-level replacement of `merge_symbols`
touches only genuine adjacent (a, b) symbol pairs. -/
def alignCond (a b : Str) (ss : List Str) : Prop :=
  ∀ p ∈ adjPairs ss, a <:+ p.1 → b <+: p.2 → p.1 = a ∧ p.2 = b

instance alignCondDecidable (a b : Str) (ss : List Str) :
    Decidable (alignCond a b ss) :=
  inferInstanceAs
    (Decidable (∀ p ∈ adjPairs ss, a <:+ p.1 → b <+: p.2 → p.1 = a ∧ p.2 = b))

/-! ## Dictionary bookkeeping lemmas -/

theorem dictInsert_of_not_mem {k : Str} {v : Nat} {l : List (Str × Nat)}
    (h : k ∉ l.map Prod.fst) : dictInsert k v l = l ++ [(k, v)] := by
  induction l with
  | nil => rfl
  | cons e rest ih =>
    simp only [List.map_cons, List.mem_cons, not_or] at h
    obtain ⟨h1, h2⟩ := h
    simpa [dictInsert, Ne.symm h1] using ih h2

theorem foldl_dictInsert_eq_append (g : Str → Str) :
    ∀ (tf acc : List (Str × Nat)),
      (tf.map (fun e => g e.1)).Nodup →
      (∀ e ∈ tf, g e.1 ∉ acc.map Prod.fst) →
      tf.foldl (fun a e => dictInsert (g e.1) e.2 a) acc
        = acc ++ tf.map (fun e => (g e.1, e.2)) := by
  intro tf
  induction tf with
  | nil => simp
  | cons e rest ih =>
    intro acc hnd hfresh
    simp only [List.map_cons, List.nodup_cons] at hnd
    have h1 : g e.1 ∉ acc.map Prod.fst := hfresh e (by simp)
    rw [List.foldl_cons, dictInsert_of_not_mem h1,
        ih (acc ++ [(g e.1, e.2)]) hnd.2 ?fresh]
    · simp
    case fresh =>
      intro e' he'
      simp only [List.map_append, List.mem_append, List.map_cons, List.map_nil,
        List.mem_singleton, not_or]
      refine ⟨hfresh e' (by simp [he']), fun hc => ?_⟩
      exact hnd.1 (List.mem_map.mpr ⟨e', he', hc⟩)

theorem sumVals_append (l₁ l₂ : List (Str × Nat)) :
    sumVals (l₁ ++ l₂) = sumVals l₁ + sumVals l₂ := by
  simp [sumVals]

/-! ## C1: frequency conservation under merges -/

/-- C1 counterexample: the claim that a merge always preserves the total
frequency mass fails when two distinct keys become textually identical after
the merge.  For the table {"a b": 1, "ab": 2} and the pair (a, b) the key
"a b" is rewritten to "ab", which collides with the existing key "ab"; the
Python dict assignment overwrites (it does not sum), so the total drops from
3 to 2. -/
theorem mergeSymbols_collision_loses_mass :
    sumVals ((merge_symbols (strL "a", strL "b")
        [(strL "a b", 1), (strL "ab", 2)] []).1) = 2
    ∧ sumVals [(strL "a b", 1), (strL "ab", 2)] = 3 := by
  refine ⟨by decide, by decide⟩

/-- C1 (amended): a merge preserves the total frequency mass provided the
string replacement maps the table's keys injectively (no two keys become
textually identical after the merge) — which holds in every training run
starting from distinct raw words, since removing the delimiters of a key
recovers the raw word and the replacement never changes that word. -/
theorem mergeSymbols_sum_preserved (p : Str × Str) (tf : List (Str × Nat))
    (vocab : List Str)
    (hinj : (tf.map (fun e =>
        replaceList (p.1 ++ ' ' :: p.2) (p.1 ++ p.2) e.1)).Nodup) :
    sumVals (merge_symbols p tf vocab).1 = sumVals tf := by
  have h := foldl_dictInsert_eq_append
    (fun t => replaceList (p.1 ++ ' ' :: p.2) (p.1 ++ p.2) t) tf [] hinj (by simp)
  simp only [merge_symbols] at *
  rw [h]
  simp only [sumVals, List.nil_append, List.map_map]
  congr 1

/-- Witness for `mergeSymbols_sum_preserved`: the notebook's first merge
(t, a) on the demo table keeps the total mass 4 + 3 + 5 + 4. -/
theorem mergeSymbols_sum_preserved_witness :
    sumVals (merge_symbols (strL "t", strL "a")
        (initTokenFreqs raw_token_freqs) symbols0).1
      = sumVals (initTokenFreqs raw_token_freqs) :=
  mergeSymbols_sum_preserved _ _ _ (by decide)

/-! ## C3: the notebook's training run -/

/-- C3: training on {"fast_": 4, "faster_": 3, "tall_": 5, "taller_": 4} for
10 merge iterations selects, in order, the pairs (t,a), (ta,l), (tal,l),
(f,a), (fa,s), (fas,t), (e,r), (er,_), (tall,_), (fast,_), and the final
word-frequency table has exactly the keys "fast_", "fast er_", "tall_",
"tall er_" with the original frequencies 4, 3, 5, 4 (and the vocabulary is
the initial one extended by the ten merged symbols). -/
theorem train_demo_roundtrip :
    trainN 10 (initTokenFreqs raw_token_freqs) symbols0
      = some (demoMergePairs, demoTokenFreqs, demoVocab) := by
  decide

/-! ## C10: frame of `merge_symbols` -/

/-- C10: in this functional embedding of the Python code, `merge_symbols`
touches the vocabulary only by appending the single element
`''.join(max_freq_pair)` (first conjunct), and the word-frequency table it
returns is freshly constructed from the pair and the old table alone — it
does not depend on the vocabulary argument at all (second conjunct).
`get_max_freq_pair` is a pure function of its input by construction. -/
theorem mergeSymbols_frame (p : Str × Str) (tf : List (Str × Nat))
    (vocab : List Str) :
    (merge_symbols p tf vocab).2 = vocab ++ [p.1 ++ p.2]
    ∧ (merge_symbols p tf vocab).1 = (merge_symbols p tf []).1 :=
  ⟨rfl, rfl⟩

/-! ## C6: pair-frequency accumulation -/

theorem lookupD_addPair (p : Str × Str) (f : Nat)
    (l : List ((Str × Str) × Nat)) (q : Str × Str) :
    lookupD (addPair p f l) q = lookupD l q + if q = p then f else 0 := by
  induction l with
  | nil =>
    by_cases h : q = p
    · subst h; simp [addPair, lookupD]
    · have h' : ¬ p = q := fun hh => h hh.symm
      simp [addPair, lookupD, h, h']
  | cons e rest ih =>
    obtain ⟨r, v⟩ := e
    by_cases h1 : r = p
    · subst h1
      by_cases h2 : q = r
      · subst h2; simp [addPair, lookupD]
      · have h3 : ¬ r = q := fun hh => h2 hh.symm
        simp [addPair, lookupD, h2, h3]
    · by_cases h2 : r = q
      · have hq : ¬ q = p := fun hh => h1 (h2.trans hh)
        simp [addPair, lookupD, h1, h2, hq]
      · simp [addPair, lookupD, h1, h2, ih]

theorem lookupD_foldl_addPair (f : Nat) :
    ∀ (ps : List (Str × Str)) (acc : List ((Str × Str) × Nat)) (q : Str × Str),
      lookupD (ps.foldl (fun a p => addPair p f a) acc) q
        = lookupD acc q + f * ps.count q := by
  intro ps
  induction ps with
  | nil => simp
  | cons p rest ih =>
    intro acc q
    rw [List.foldl_cons, ih, lookupD_addPair, List.count_cons]
    by_cases h : q = p
    · subst h
      simp only [beq_self_eq_true, if_true]
      ring
    · have h' : (p == q) = false := by
        simpa using fun hh : p = q => h hh.symm
      simp [h, h']

/-- C6 counterexample: `get_max_freq_pair` accumulates the word frequency
once per *occurrence* of the adjacent pair, not once per word containing it:
for the table {"a b a b": 1} the pair (a, b) occurs twice in the single key,
so it accumulates 2, while the summed frequency of the keys containing the
pair is 1. -/
theorem pairStats_occurrence_cx :
    lookupD (pairStats [(strL "a b a b", 1)]) (strL "a", strL "b") = 2
    ∧ sumVals ([(strL "a b a b", 1)].filter
        (fun e => decide ((strL "a", strL "b") ∈ adjPairs (splitSpace e.1)))) = 1 := by
  refine ⟨by decide, by decide⟩

/-- C6 (amended): the total accumulated for an ordered pair q equals the sum,
over the table's entries, of the entry's frequency times the number of
adjacent occurrences of q among the symbols of its key.  In particular only
pairs inside a single key are ever counted — no pair spanning two distinct
keys contributes — and the accumulated value coincides with the claim's
"summed frequency of words containing the pair" exactly when no key contains
the pair more than once. -/
theorem pairStats_lookup_eq_sum (tf : List (Str × Nat)) (q : Str × Str) :
    lookupD (pairStats tf) q = (tf.map (fun e => e.2 * countAdj q e.1)).sum := by
  suffices h : ∀ acc,
      lookupD (tf.foldl (fun acc e =>
          (adjPairs (splitSpace e.1)).foldl (fun a p => addPair p e.2 a) acc) acc) q
        = lookupD acc q + (tf.map (fun e => e.2 * countAdj q e.1)).sum by
    simpa [pairStats, lookupD] using h []
  induction tf with
  | nil => simp
  | cons e rest ih =>
    intro acc
    rw [List.foldl_cons, ih, lookupD_foldl_addPair]
    simp only [List.map_cons, List.sum_cons, countAdj]
    ring

/-! ## C7: maximum selection and the empty-pair error condition -/

theorem maxFoldl_spec :
    ∀ (rest : List ((Str × Str) × Nat)) (b : (Str × Str) × Nat),
      (rest.foldl (fun b e => if b.2 < e.2 then e else b) b = b
          ∨ rest.foldl (fun b e => if b.2 < e.2 then e else b) b ∈ rest)
      ∧ b.2 ≤ (rest.foldl (fun b e => if b.2 < e.2 then e else b) b).2
      ∧ ∀ e ∈ rest, e.2 ≤ (rest.foldl (fun b e => if b.2 < e.2 then e else b) b).2 := by
  intro rest
  induction rest with
  | nil => simp
  | cons x xs ih =>
    intro b
    rw [List.foldl_cons]
    by_cases h : b.2 < x.2
    · obtain ⟨hmem, hle, hall⟩ := ih x
      rw [if_pos h]
      refine ⟨Or.inr (by rcases hmem with h' | h' <;> simp [h']), le_of_lt (lt_of_lt_of_le h hle), ?_⟩
      intro e he
      rcases List.mem_cons.mp he with h' | h'
      · exact h' ▸ hle
      · exact hall e h'
    · obtain ⟨hmem, hle, hall⟩ := ih b
      rw [if_neg h]
      refine ⟨by rcases hmem with h' | h' <;> simp [h'], hle, ?_⟩
      intro e he
      rcases List.mem_cons.mp he with h' | h'
      · exact h' ▸ le_trans (Nat.le_of_not_lt h) hle
      · exact hall e h'

theorem addPair_keys (p : Str × Str) (f : Nat) (l : List ((Str × Str) × Nat)) :
    (addPair p f l).map Prod.fst
      = if p ∈ l.map Prod.fst then l.map Prod.fst else l.map Prod.fst ++ [p] := by
  induction l with
  | nil => simp [addPair]
  | cons e rest ih =>
    by_cases h : e.1 = p
    · simp [addPair, h]
    · have h' : ¬ p = e.1 := fun hh => h hh.symm
      by_cases h2 : p ∈ rest.map Prod.fst <;> simp [addPair, h, h', h2, ih]

theorem addPair_nodup_keys (p : Str × Str) (f : Nat)
    (l : List ((Str × Str) × Nat)) (h : (l.map Prod.fst).Nodup) :
    ((addPair p f l).map Prod.fst).Nodup := by
  rw [addPair_keys]
  by_cases h2 : p ∈ l.map Prod.fst
  · simpa [h2] using h
  · rw [if_neg h2, List.nodup_append]
    refine ⟨h, by simp, fun a ha hb => ?_⟩
    rw [List.mem_singleton] at hb
    exact h2 (hb ▸ ha)

theorem foldl_addPair_nodup_keys (f : Nat) :
    ∀ (ps : List (Str × Str)) (acc : List ((Str × Str) × Nat)),
      (acc.map Prod.fst).Nodup →
      (((ps.foldl (fun a p => addPair p f a) acc)).map Prod.fst).Nodup := by
  intro ps
  induction ps with
  | nil => intro acc h; simpa using h
  | cons p rest ih =>
    intro acc h
    exact ih _ (addPair_nodup_keys p f acc h)

theorem pairStats_nodup_keys (tf : List (Str × Nat)) :
    ((pairStats tf).map Prod.fst).Nodup := by
  suffices h : ∀ acc : List ((Str × Str) × Nat), (acc.map Prod.fst).Nodup →
      ((tf.foldl (fun acc e =>
          (adjPairs (splitSpace e.1)).foldl (fun a p => addPair p e.2 a) acc) acc).map
        Prod.fst).Nodup by
    exact h [] (by simp)
  induction tf with
  | nil => intro acc h; simpa using h
  | cons e rest ih =>
    intro acc h
    exact ih _ (foldl_addPair_nodup_keys e.2 _ acc h)

theorem lookupD_mem_or_zero :
    ∀ (l : List ((Str × Str) × Nat)) (q : Str × Str),
      lookupD l q = 0 ∨ (q, lookupD l q) ∈ l := by
  intro l
  induction l with
  | nil => intro q; exact Or.inl rfl
  | cons e rest ih =>
    intro q
    by_cases h : e.1 = q
    · subst h
      right
      simp [lookupD]
    · rcases ih q with h' | h'
      · exact Or.inl (by simpa [lookupD, h] using h')
      · right
        simp only [lookupD, h, if_false]
        exact List.mem_cons_of_mem _ h'

theorem lookupD_of_mem_nodup {l : List ((Str × Str) × Nat)} {q : Str × Str}
    {w : Nat} (hnd : (l.map Prod.fst).Nodup) (hmem : (q, w) ∈ l) :
    lookupD l q = w := by
  induction l with
  | nil => cases hmem
  | cons e rest ih =>
    simp only [List.map_cons, List.nodup_cons] at hnd
    rcases List.mem_cons.mp hmem with h | h
    · rw [← h]
      simp [lookupD]
    · have hne : ¬ e.1 = q := by
        intro hh
        exact hnd.1 (List.mem_map.mpr ⟨(q, w), h, by simp [hh]⟩)
      simp only [lookupD, hne, if_false]
      exact ih hnd.2 h

theorem addPair_ne_nil (p : Str × Str) (f : Nat) (l : List ((Str × Str) × Nat)) :
    addPair p f l ≠ [] := by
  cases l with
  | nil => simp [addPair]
  | cons e rest =>
    by_cases h : e.1 = p <;> simp [addPair, h]

theorem foldl_addPair_nil_iff (f : Nat) :
    ∀ (ps : List (Str × Str)) (acc : List ((Str × Str) × Nat)),
      ps.foldl (fun a p => addPair p f a) acc = [] ↔ acc = [] ∧ ps = [] := by
  intro ps
  induction ps with
  | nil => simp
  | cons p rest ih =>
    intro acc
    rw [List.foldl_cons, ih]
    simp [addPair_ne_nil]

theorem pairStats_nil_iff (tf : List (Str × Nat)) :
    pairStats tf = [] ↔ ∀ e ∈ tf, adjPairs (splitSpace e.1) = [] := by
  suffices h : ∀ acc : List ((Str × Str) × Nat),
      tf.foldl (fun acc e =>
          (adjPairs (splitSpace e.1)).foldl (fun a p => addPair p e.2 a) acc) acc = []
        ↔ acc = [] ∧ ∀ e ∈ tf, adjPairs (splitSpace e.1) = [] by
    simpa [pairStats] using h []
  induction tf with
  | nil => simp
  | cons e rest ih =>
    intro acc
    rw [List.foldl_cons, ih, foldl_addPair_nil_iff]
    constructor
    · rintro ⟨⟨h1, h2⟩, h3⟩
      exact ⟨h1, by simpa [h2] using h3⟩
    · rintro ⟨h1, h2⟩
      exact ⟨⟨h1, h2 e (by simp)⟩, fun e' he' => h2 e' (by simp [he'])⟩

/-- C7: `get_max_freq_pair` fails (models Python's `ValueError` on
`max` of an empty dict) exactly when no key of the table contains two or
more symbols, i.e. when the pair set is empty; and whenever it returns a
pair, that pair's accumulated frequency is maximal among all pairs. -/
theorem getMaxFreqPair_spec (tf : List (Str × Nat)) :
    (get_max_freq_pair tf = none ↔ ∀ e ∈ tf, adjPairs (splitSpace e.1) = [])
    ∧ ∀ p, get_max_freq_pair tf = some p →
        ∀ q, lookupD (pairStats tf) q ≤ lookupD (pairStats tf) p := by
  constructor
  · rw [← pairStats_nil_iff]
    unfold get_max_freq_pair
    cases h : pairStats tf with
    | nil => simp [maxByValue]
    | cons e rest => simp [maxByValue]
  · intro p hp q
    unfold get_max_freq_pair at hp
    cases h : pairStats tf with
    | nil => rw [h] at hp; simp [maxByValue] at hp
    | cons e rest =>
      rw [h] at hp
      simp only [maxByValue, Option.some.injEq] at hp
      obtain ⟨hmem, hle, hall⟩ := maxFoldl_spec rest e
      set r := rest.foldl (fun b e => if b.2 < e.2 then e else b) e with hr
      have hrmem : r ∈ e :: rest := by
        rcases hmem with h' | h'
        · simp [h']
        · exact List.mem_cons_of_mem _ h'
      have hnd : ((pairStats tf).map Prod.fst).Nodup := pairStats_nodup_keys tf
      rw [h] at hnd
      have hlookup : lookupD (e :: rest) r.1 = r.2 :=
        lookupD_of_mem_nodup hnd (by simpa using hrmem)
      rw [← hp, hlookup]
      rcases lookupD_mem_or_zero (e :: rest) q with h0 | hq
      · omega
      · rcases List.mem_cons.mp hq with h' | h'
        · have : lookupD (e :: rest) q = e.2 := congrArg Prod.snd h'
          omega
        · exact hall _ h'

/-- Witness for `getMaxFreqPair_spec`: on the notebook's initial table the
selected pair (t, a) has accumulated frequency at least that of (f, a). -/
theorem getMaxFreqPair_spec_witness :
    lookupD (pairStats (initTokenFreqs raw_token_freqs)) (strL "f", strL "a")
      ≤ lookupD (pairStats (initTokenFreqs raw_token_freqs)) (strL "t", strL "a") :=
  (getMaxFreqPair_spec _).2 _ (by decide) _

/-! ## C4: vocabulary growth across training iterations -/

theorem trainN_vocab :
    ∀ (n : Nat) (tf : List (Str × Nat)) (v : List Str) (ps : List (Str × Str))
      (tf' : List (Str × Nat)) (v' : List Str),
      trainN n tf v = some (ps, tf', v') →
      v' = v ++ ps.map (fun p => p.1 ++ p.2) ∧ ps.length = n := by
  intro n
  induction n with
  | zero =>
    intro tf v ps tf' v' h
    simp only [trainN, Option.some.injEq, Prod.mk.injEq] at h
    obtain ⟨h1, _, h2⟩ := h
    subst h1
    subst h2
    simp
  | succ n ih =>
    intro tf v ps tf' v' h
    cases hg : get_max_freq_pair tf with
    | none => simp only [trainN, hg] at h; cases h
    | some p =>
      simp only [trainN, hg] at h
      cases htr : trainN n (merge_symbols p tf v).1 (merge_symbols p tf v).2 with
      | none => rw [htr] at h; cases h
      | some x =>
        obtain ⟨ps', tf'', v''⟩ := x
        rw [htr] at h
        simp only [Option.map_some', Option.some.injEq, Prod.mk.injEq] at h
        obtain ⟨h1, h2, h3⟩ := h
        obtain ⟨hv, hl⟩ := ih _ _ _ _ _ htr
        subst h1
        subst h3
        constructor
        · rw [hv]
          simp [merge_symbols]
        · simp [hl]

/-- C4 counterexample: a training run can repeat an existing vocabulary
symbol.  Training on the corpus {"[UNK]": 1} for 4 iterations merges
([, U), ([U, N), ([UN, K), ([UNK, ]), and the last append re-creates the
initial sentinel "[UNK]", so the vocabulary has 28 + 4 = 32 entries but a
duplicate — "no duplicates" fails. -/
theorem vocab_duplicate_cx :
    (trainN 4 (initTokenFreqs [(strL "[UNK]", 1)]) symbols0).map (fun r => r.2.2)
      = some (symbols0 ++ [strL "[U", strL "[UN", strL "[UNK", strL "[UNK]"])
    ∧ ¬ (symbols0 ++ [strL "[U", strL "[UN", strL "[UNK", strL "[UNK]"]).Nodup := by
  refine ⟨by decide, by decide⟩

/-- C4 (amended): every successful training run of N iterations appends
exactly one symbol — the concatenation of the selected pair — per iteration
and never removes one, so the vocabulary after N iterations has exactly
(initial size + N) entries and the initial vocabulary is a prefix of the
final one.  The appended symbols need not be distinct from existing ones
(see `vocab_duplicate_cx`). -/
theorem trainN_vocab_growth (n : Nat) (tf : List (Str × Nat)) (v : List Str)
    (ps : List (Str × Str)) (tf' : List (Str × Nat)) (v' : List Str)
    (h : trainN n tf v = some (ps, tf', v')) :
    v'.length = v.length + n ∧ v <+: v'
    ∧ v' = v ++ ps.map (fun p => p.1 ++ p.2) := by
  obtain ⟨h1, h2⟩ := trainN_vocab n tf v ps tf' v' h
  subst h1
  exact ⟨by simp [h2], ⟨_, rfl⟩, rfl⟩

/-- Witness for `trainN_vocab_growth`: the notebook's 10-iteration run grows
the vocabulary from 28 to 38 symbols, keeping the initial ones as a prefix. -/
theorem trainN_vocab_growth_witness :
    demoVocab.length = symbols0.length + 10 ∧ symbols0 <+: demoVocab
    ∧ demoVocab = symbols0 ++ demoMergePairs.map (fun p => p.1 ++ p.2) :=
  trainN_vocab_growth 10 (initTokenFreqs raw_token_freqs) symbols0
    demoMergePairs demoTokenFreqs demoVocab (by decide)

/-! ## Segmentation: the `segment_BPE` loop -/

theorem segToken_unfold (token : Str) (symbols : List Str) (start e : Nat) :
    segToken token symbols start e =
      if start < token.length ∧ start < e then
        if slice token start e ∈ symbols then
          slice token start e :: segToken token symbols e token.length
        else segToken token symbols start (e - 1)
      else if start < token.length then [unkTok] else [] := by
  rw [segToken]

theorem seg_measure_match {L start e : Nat} (hse : start < e) (heL : e ≤ L) :
    (L - e) * (L + 1) + L < (L - start) * (L + 1) + e := by
  have h3 : L - e + 1 ≤ L - start := by omega
  have h4 := Nat.mul_le_mul_right (L + 1) h3
  rw [Nat.succ_mul] at h4
  omega

/-- Helper for C9: with fuel exceeding
(length − start)·(length + 1) + end, the fuel-indexed loop computes the same
result as the loop itself: every iteration either strictly decreases `end`
(no match) or strictly increases `start` (match), and this measure bounds
the number of iterations. -/
theorem segTokenFuel_adequate :
    ∀ (fuel : Nat) (token : Str) (symbols : List Str) (start e : Nat),
      e ≤ token.length →
      (token.length - start) * (token.length + 1) + e < fuel →
      segTokenFuel fuel token symbols start e = segToken token symbols start e := by
  intro fuel
  induction fuel with
  | zero =>
    intro token symbols start e _ hm
    exact absurd hm (Nat.not_lt_zero _)
  | succ fuel ih =>
    intro token symbols start e he hm
    rw [segToken_unfold]
    simp only [segTokenFuel]
    by_cases hg : start < token.length ∧ start < e
    · rw [if_pos hg, if_pos hg]
      by_cases hs : slice token start e ∈ symbols
      · rw [if_pos hs, if_pos hs]
        congr 1
        apply ih token symbols e token.length (le_refl _)
        have := seg_measure_match hg.2 he
        omega
      · rw [if_neg hs, if_neg hs]
        apply ih token symbols start (e - 1) (by omega)
        omega
    · rw [if_neg hg, if_neg hg]

theorem drop_ne_nil_of_lt {token : Str} {start : Nat} (h : start < token.length) :
    token.drop start ≠ [] := by
  intro hc
  have := congrArg List.length hc
  simp only [List.length_drop, List.length_nil] at this
  omega

theorem slice_append_drop (token : Str) (start e : Nat) (h1 : start ≤ e) :
    slice token start e ++ token.drop e = token.drop start := by
  unfold slice
  have h3 : (token.drop start).drop (e - start) = token.drop e := by
    rw [List.drop_drop]
    congr 1
    omega
  rw [← h3, List.take_append_drop]

theorem prefixAppendLeft (x : Str) {l₁ l₂ : Str} (h : l₁ <+: l₂) :
    x ++ l₁ <+: x ++ l₂ := by
  obtain ⟨t, ht⟩ := h
  exact ⟨t, by rw [List.append_assoc, ht]⟩

theorem mem_concatL {l : List Str} {s : Str} (hs : s ∈ l) {c : Char}
    (hc : c ∈ s) : c ∈ concatL l := by
  induction l with
  | nil => cases hs
  | cons x xs ih =>
    have hx : concatL (x :: xs) = x ++ concatL xs := rfl
    rw [hx]
    rcases List.mem_cons.mp hs with h | h
    · exact List.mem_append.mpr (Or.inl (h ▸ hc))
    · exact List.mem_append.mpr (Or.inr (ih h))

theorem segFuel_disj :
    ∀ (fuel : Nat) (token : Str) (symbols : List Str) (start e : Nat),
      e ≤ token.length →
      (token.length - start) * (token.length + 1) + e < fuel →
      ((∀ s ∈ segTokenFuel fuel token symbols start e, s ∈ symbols)
        ∧ concatL (segTokenFuel fuel token symbols start e) = token.drop start)
      ∨ (∃ ms, segTokenFuel fuel token symbols start e = ms ++ [unkTok]
          ∧ (∀ s ∈ ms, s ∈ symbols)
          ∧ concatL ms <+: token.drop start ∧ concatL ms ≠ token.drop start) := by
  intro fuel
  induction fuel with
  | zero =>
    intro token symbols start e _ hm
    exact absurd hm (Nat.not_lt_zero _)
  | succ fuel ih =>
    intro token symbols start e he hm
    simp only [segTokenFuel]
    by_cases hg : start < token.length ∧ start < e
    · rw [if_pos hg]
      by_cases hs : slice token start e ∈ symbols
      · rw [if_pos hs]
        have harith : (token.length - e) * (token.length + 1) + token.length < fuel := by
          have := seg_measure_match hg.2 he
          omega
        have hsd : slice token start e ++ token.drop e = token.drop start :=
          slice_append_drop token start e (le_of_lt hg.2)
        rcases ih token symbols e token.length (le_refl _) harith with
          ⟨hmem, hcat⟩ | ⟨ms, hms, hmem, hpre, hne⟩
        · left
          constructor
          · intro s hmem2
            rcases List.mem_cons.mp hmem2 with h | h
            · exact h ▸ hs
            · exact hmem s h
          · have : concatL (slice token start e :: segTokenFuel fuel token symbols e token.length)
                = slice token start e ++ concatL (segTokenFuel fuel token symbols e token.length) := rfl
            rw [this, hcat, hsd]
        · right
          refine ⟨slice token start e :: ms, by rw [hms]; rfl, ?_, ?_, ?_⟩
          · intro s hmem2
            rcases List.mem_cons.mp hmem2 with h | h
            · exact h ▸ hs
            · exact hmem s h
          · have hcc : concatL (slice token start e :: ms)
                = slice token start e ++ concatL ms := rfl
            rw [hcc, ← hsd]
            exact prefixAppendLeft _ hpre
          · have hcc : concatL (slice token start e :: ms)
                = slice token start e ++ concatL ms := rfl
            rw [hcc, ← hsd]
            intro hc
            exact hne (List.append_cancel_left hc)
      · rw [if_neg hs]
        exact ih token symbols start (e - 1) (by omega) (by omega)
    · rw [if_neg hg]
      by_cases hstart : start < token.length
      · rw [if_pos hstart]
        right
        refine ⟨[], rfl, by simp, List.nil_prefix, ?_⟩
        intro hc
        exact drop_ne_nil_of_lt hstart hc.symm
      · rw [if_neg hstart]
        left
        refine ⟨by simp, ?_⟩
        have : token.drop start = [] := List.drop_eq_nil_of_le (by omega)
        simp [this, concatL]

theorem segToken_disj (token : Str) (symbols : List Str) (start e : Nat)
    (he : e ≤ token.length) :
    ((∀ s ∈ segToken token symbols start e, s ∈ symbols)
      ∧ concatL (segToken token symbols start e) = token.drop start)
    ∨ (∃ ms, segToken token symbols start e = ms ++ [unkTok]
        ∧ (∀ s ∈ ms, s ∈ symbols)
        ∧ concatL ms <+: token.drop start ∧ concatL ms ≠ token.drop start) := by
  have h := segFuel_disj
    ((token.length - start) * (token.length + 1) + e + 1) token symbols start e he
    (by omega)
  rwa [segTokenFuel_adequate _ _ _ _ _ he (by omega)] at h

/-- C5: the contract of the `segment_BPE` scan for a single token, starting
from `start = 0`, `end = length`: either every emitted symbol is a
vocabulary entry and their concatenation is exactly the token (all input
consumed, no marker emitted), or the output is a list of matched vocabulary
entries followed by exactly one final `'[UNK]'` marker standing for the
entire unmatched remainder — the matched part concatenates to a proper
prefix of the token and no further matching is attempted after the marker. -/
theorem segToken_contract (token : Str) (symbols : List Str) :
    ((∀ s ∈ segToken token symbols 0 token.length, s ∈ symbols)
      ∧ concatL (segToken token symbols 0 token.length) = token)
    ∨ (∃ ms, segToken token symbols 0 token.length = ms ++ [unkTok]
        ∧ (∀ s ∈ ms, s ∈ symbols)
        ∧ concatL ms <+: token ∧ concatL ms ≠ token) := by
  have h := segToken_disj token symbols 0 token.length (le_refl _)
  simpa using h

/-! ## C9: termination of the segmentation loop -/

/-- C9: the `segment_BPE` scan loop terminates for every token, vocabulary
and scan state: each iteration either strictly decreases `end` (no match) or
strictly increases `start` (match, with `end` reset to the token's length),
so the lexicographic measure (length − start, end) strictly decreases and
the single-number bound (length − start)·(length + 1) + end dominates the
number of remaining iterations: given that much fuel, the fuel-indexed loop
already computes the loop's final answer. -/
theorem segToken_terminates_with_fuel (token : Str) (symbols : List Str)
    (start e fuel : Nat) (he : e ≤ token.length)
    (hf : (token.length - start) * (token.length + 1) + e < fuel) :
    segTokenFuel fuel token symbols start e = segToken token symbols start e :=
  segTokenFuel_adequate fuel token symbols start e he hf

/-- Witness for `segToken_terminates_with_fuel`: the token "tallest_" of
length 8 needs at most 8·9 + 8 = 80 iterations. -/
theorem segToken_terminates_with_fuel_witness :
    segTokenFuel 81 (strL "tallest_") symbols0 0 (strL "tallest_").length
      = segToken (strL "tallest_") symbols0 0 (strL "tallest_").length :=
  segToken_terminates_with_fuel (strL "tallest_") symbols0 0
    (strL "tallest_").length 81 (by decide) (by decide)

/-! ## C8: segmentation round-trip on training data -/

theorem slice_singleton (token : Str) (start : Nat) (h : start < token.length) :
    slice token start (start + 1) = [token[start]] := by
  unfold slice
  have h1 : start + 1 - start = 1 := by omega
  rw [h1, List.drop_eq_getElem_cons h, List.take_succ_cons, List.take_zero]

theorem segFuel_singles :
    ∀ (fuel : Nat) (token : Str) (symbols : List Str) (start e : Nat),
      e ≤ token.length →
      (token.length - start) * (token.length + 1) + e < fuel →
      (start < e ∨ start = token.length) →
      (∀ c ∈ token, [c] ∈ symbols) →
      (∀ s ∈ segTokenFuel fuel token symbols start e, s ∈ symbols)
      ∧ concatL (segTokenFuel fuel token symbols start e) = token.drop start := by
  intro fuel
  induction fuel with
  | zero =>
    intro token symbols start e _ hm
    exact absurd hm (Nat.not_lt_zero _)
  | succ fuel ih =>
    intro token symbols start e he hm hinv hchar
    simp only [segTokenFuel]
    rcases hinv with hse | heq
    · have hsl : start < token.length := lt_of_lt_of_le hse he
      rw [if_pos ⟨hsl, hse⟩]
      by_cases hs : slice token start e ∈ symbols
      · rw [if_pos hs]
        have harith : (token.length - e) * (token.length + 1) + token.length < fuel := by
          have := seg_measure_match hse he
          omega
        have hinv' : e < token.length ∨ e = token.length := by omega
        obtain ⟨hmem, hcat⟩ := ih token symbols e token.length (le_refl _) harith
          (by omega) hchar
        constructor
        · intro s hmem2
          rcases List.mem_cons.mp hmem2 with h | h
          · exact h ▸ hs
          · exact hmem s h
        · have hcc : concatL (slice token start e :: segTokenFuel fuel token symbols e token.length)
              = slice token start e ++ concatL (segTokenFuel fuel token symbols e token.length) := rfl
          rw [hcc, hcat, slice_append_drop token start e (le_of_lt hse)]
      · rw [if_neg hs]
        have hne : e ≠ start + 1 := by
          intro hc
          subst hc
          rw [slice_singleton token start hsl] at hs
          exact hs (hchar _ (List.getElem_mem hsl))
        exact ih token symbols start (e - 1) (by omega) (by omega)
          (Or.inl (by omega)) hchar
    · subst heq
      rw [if_neg (by omega)]
      rw [if_neg (by omega)]
      refine ⟨by simp, ?_⟩
      have hdrop : token.drop token.length = [] := List.drop_eq_nil_of_le (le_refl _)
      simp [hdrop, concatL]

theorem segToken_singles (token : Str) (symbols : List Str)
    (hchar : ∀ c ∈ token, [c] ∈ symbols) :
    (∀ s ∈ segToken token symbols 0 token.length, s ∈ symbols)
    ∧ concatL (segToken token symbols 0 token.length) = token := by
  have h := segFuel_singles
    ((token.length - 0) * (token.length + 1) + token.length + 1)
    token symbols 0 token.length (le_refl _) (by omega) (by omega) hchar
  rw [segTokenFuel_adequate _ _ _ _ _ (le_refl _) (by omega)] at h
  simpa using h

/-- C8: after any successful training run started from the initial
vocabulary, segmenting a training word whose characters all lie in the
initial alphabet (lowercase letters and the end-of-word marker) against the
resulting vocabulary reconstructs the word exactly — the emitted symbols
concatenate (delimiters removed) to the original word, and no '[UNK]' is
emitted.  This holds because training only appends to the vocabulary, so the
single-character fallback always succeeds. -/
theorem segment_training_roundtrip
    (raw : List (Str × Nat)) (n : Nat) (ps : List (Str × Str))
    (tf' : List (Str × Nat)) (v' : List Str) (token : Str) (f : Nat)
    (htr : trainN n (initTokenFreqs raw) symbols0 = some (ps, tf', v'))
    (hmem : (token, f) ∈ raw)
    (hchar : ∀ c ∈ token, [c] ∈ symbols0) :
    concatL (segToken token v' 0 token.length) = token
    ∧ unkTok ∉ segToken token v' 0 token.length := by
  have hpre : symbols0 <+: v' := by
    obtain ⟨hv, _⟩ := trainN_vocab n _ _ _ _ _ htr
    exact hv ▸ ⟨_, rfl⟩
  have hchar' : ∀ c ∈ token, [c] ∈ v' := fun c hc => hpre.subset (hchar c hc)
  obtain ⟨hmemS, hconcat⟩ := segToken_singles token v' hchar'
  refine ⟨hconcat, fun hunk => ?_⟩
  have hbra : '[' ∈ token := by
    rw [← hconcat]
    exact mem_concatL hunk (by decide)
  exact absurd (hchar '[' hbra) (by decide)

/-- Witness for `segment_training_roundtrip`: the demo word "fast_" is
segmented against the trained vocabulary into symbols that concatenate back
to "fast_", with no unknown marker. -/
theorem segment_training_roundtrip_witness :
    concatL (segToken (strL "fast_") demoVocab 0 (strL "fast_").length) = strL "fast_"
    ∧ unkTok ∉ segToken (strL "fast_") demoVocab 0 (strL "fast_").length :=
  segment_training_roundtrip raw_token_freqs 10 demoMergePairs demoTokenFreqs
    demoVocab (strL "fast_") 4 (by decide) (by decide) (by decide)

/-! ## C2: what `merge_symbols` replaces -/

theorem replaceAux_skip (pat rep : Str) :
    ∀ (cs : Str) (k : Nat), replaceAux pat rep cs k = replaceAux pat rep (cs.drop k) 0 := by
  intro cs
  induction cs with
  | nil => intro k; cases k <;> rfl
  | cons c cs' ih =>
    intro k
    cases k with
    | zero => rfl
    | succ k => simpa [replaceAux] using ih k

theorem replaceList_cons_not_prefix {pat : Str} (rep : Str) {c : Char} {cs : Str}
    (h : ¬ pat <+: (c :: cs)) :
    replaceList pat rep (c :: cs) = c :: replaceList pat rep cs := by
  unfold replaceList
  rw [replaceAux]
  rw [if_neg]
  intro ⟨_, hpre⟩
  exact h (List.isPrefixOf_iff_prefix.mp hpre)

theorem replaceList_of_prefix {pat : Str} (rep : Str) {s : Str}
    (hne : pat ≠ []) (hp : pat <+: s) (hs : s ≠ []) :
    replaceList pat rep s = rep ++ replaceList pat rep (s.drop pat.length) := by
  cases s with
  | nil => exact absurd rfl hs
  | cons c cs =>
    unfold replaceList
    rw [replaceAux, if_pos ⟨hne, List.isPrefixOf_iff_prefix.mpr hp⟩,
      replaceAux_skip]
    have h1 : (c :: cs).drop pat.length = cs.drop (pat.length - 1) := by
      obtain ⟨n, hn⟩ : ∃ n, pat.length = n + 1 :=
        ⟨pat.length - 1, by have := List.length_pos.mpr hne; omega⟩
      rw [hn]
      simp [List.drop_succ_cons]
    rw [h1]

theorem replaceList_append_no_match (pat rep : Str) :
    ∀ (u v : Str), (∀ i, i < u.length → ¬ pat <+: ((u ++ v).drop i)) →
      replaceList pat rep (u ++ v) = u ++ replaceList pat rep v := by
  intro u
  induction u with
  | nil => intro v _; simp
  | cons c u' ih =>
    intro v h
    have h0 : ¬ pat <+: (c :: (u' ++ v)) := by
      simpa using h 0 (by simp)
    have harg : ∀ i, i < u'.length → ¬ pat <+: ((u' ++ v).drop i) := by
      intro i hi
      have := h (i + 1) (by simpa using Nat.succ_lt_succ hi)
      simpa using this
    rw [List.cons_append, replaceList_cons_not_prefix rep h0, ih v harg]
    rfl

theorem prefix_space_split {b j : Str} :
    ∀ {a s : Str}, ' ' ∉ a → ' ' ∉ s → (a ++ ' ' :: b) <+: (s ++ ' ' :: j) →
      a = s ∧ b <+: j := by
  intro a
  induction a with
  | nil =>
    intro s _ hs hp
    cases s with
    | nil =>
      simp only [List.nil_append, List.cons_prefix_cons] at hp
      exact ⟨rfl, hp.2⟩
    | cons x s' =>
      simp only [List.nil_append, List.cons_append, List.cons_prefix_cons] at hp
      exact absurd (hp.1 ▸ List.mem_cons_self x s') hs
  | cons c a' ih =>
    intro s ha hs hp
    cases s with
    | nil =>
      simp only [List.nil_append, List.cons_append, List.cons_prefix_cons] at hp
      exact absurd (hp.1 ▸ List.mem_cons_self c a') ha
    | cons x s' =>
      simp only [List.cons_append, List.cons_prefix_cons] at hp
      obtain ⟨hx, hrest⟩ := hp
      have ha' : ' ' ∉ a' := fun hm => ha (List.mem_cons_of_mem _ hm)
      have hs' : ' ' ∉ s' := fun hm => hs (List.mem_cons_of_mem _ hm)
      obtain ⟨he, hpre⟩ := ih ha' hs' hrest
      exact ⟨by rw [hx, he], hpre⟩

theorem not_prefix_space_head {a b : Str} (ha : a ≠ []) (ha' : ' ' ∉ a)
    (w : Str) : ¬ (a ++ ' ' :: b) <+: (' ' :: w) := by
  cases a with
  | nil => exact absurd rfl ha
  | cons c a' =>
    intro hp
    simp only [List.cons_append, List.cons_prefix_cons] at hp
    exact ha' (hp.1 ▸ List.mem_cons_self c a')

theorem prefix_through_space :
    ∀ {b t : Str} (w : Str), ' ' ∉ b → ' ' ∉ t → b <+: (t ++ ' ' :: w) → b <+: t := by
  intro b
  induction b with
  | nil => intro t w _ _ _; exact List.nil_prefix
  | cons c b' ih =>
    intro t w hb ht hp
    have hb' : ' ' ∉ b' := fun hm => hb (List.mem_cons_of_mem _ hm)
    cases t with
    | nil =>
      simp only [List.nil_append, List.cons_prefix_cons] at hp
      exact absurd (hp.1 ▸ List.mem_cons_self c b') hb
    | cons d t' =>
      simp only [List.cons_append, List.cons_prefix_cons] at hp
      obtain ⟨hx, hrest⟩ := hp
      have ht' : ' ' ∉ t' := fun hm => ht (List.mem_cons_of_mem _ hm)
      exact List.cons_prefix_cons.mpr ⟨hx, ih w hb' ht' hrest⟩

theorem joinSpace_cons (s : Str) {l : List Str} (h : l ≠ []) :
    joinSpace (s :: l) = s ++ ' ' :: joinSpace l := by
  cases l with
  | nil => exact absurd rfl h
  | cons t rest => rfl

theorem mergeAdjacent_ne_nil (a b : Str) :
    ∀ (x : Str) (l : List Str), mergeAdjacent a b (x :: l) ≠ [] := by
  intro x l
  cases l with
  | nil => simp [mergeAdjacent]
  | cons t rest =>
    by_cases h : x = a ∧ t = b <;> simp [mergeAdjacent, h]

theorem splitSpaceAux_wf :
    ∀ (t : Str) (acc : Str), ' ' ∉ acc →
      ∀ s ∈ splitSpaceAux t acc, s ≠ [] ∧ ' ' ∉ s := by
  intro t
  induction t with
  | nil =>
    intro acc hacc s hs
    unfold splitSpaceAux at hs
    by_cases h : acc = []
    · simp [h] at hs
    · rw [if_neg h] at hs
      rw [List.mem_singleton] at hs
      subst hs
      refine ⟨by simpa using h, by simpa using hacc⟩
  | cons c cs ih =>
    intro acc hacc s hs
    unfold splitSpaceAux at hs
    by_cases hc : c = ' '
    · rw [if_pos hc] at hs
      by_cases h : acc = []
      · rw [if_pos h] at hs
        exact ih [] (by simp) s hs
      · rw [if_neg h] at hs
        rcases List.mem_cons.mp hs with h' | h'
        · subst h'
          refine ⟨by simpa using h, by simpa using hacc⟩
        · exact ih [] (by simp) s h'
    · rw [if_neg hc] at hs
      have hacc' : ' ' ∉ c :: acc := by
        intro hm
        rcases List.mem_cons.mp hm with h' | h'
        · exact hc h'.symm
        · exact hacc h'
      exact ih (c :: acc) hacc' s hs

theorem splitSpace_wf (t : Str) : ∀ s ∈ splitSpace t, s ≠ [] ∧ ' ' ∉ s :=
  splitSpaceAux_wf t [] (by simp)

theorem replaceList_nil (pat rep : Str) : replaceList pat rep [] = [] := rfl

theorem adjPairs_cons_cons (x y : Str) (l : List Str) :
    adjPairs (x :: y :: l) = (x, y) :: adjPairs (y :: l) := rfl

theorem adjPairs_tail_sub {x : Str} {l : List Str} :
    ∀ p ∈ adjPairs l, p ∈ adjPairs (x :: l) := by
  intro p hp
  cases l with
  | nil => exact absurd hp (by simp [adjPairs])
  | cons y l' =>
    rw [adjPairs_cons_cons]
    exact List.mem_cons_of_mem _ hp

theorem replaceList_mergeAdjacent (a b : Str) (ha : a ≠ []) (ha' : ' ' ∉ a)
    (hb' : ' ' ∉ b) :
    ∀ (n : Nat) (ss : List Str), ss.length ≤ n →
      (∀ s ∈ ss, s ≠ [] ∧ ' ' ∉ s) → alignCond a b ss →
      replaceList (a ++ ' ' :: b) (a ++ b) (joinSpace ss)
        = joinSpace (mergeAdjacent a b ss) := by
  intro n
  induction n with
  | zero =>
    intro ss hlen _ _
    have h0 : ss = [] := List.length_eq_zero.mp (Nat.le_zero.mp hlen)
    subst h0
    rfl
  | succ n ih =>
    intro ss hlen hwf hal
    rcases ss with _ | ⟨s, rest0⟩
    · rfl
    rcases rest0 with _ | ⟨t, rest⟩
    · -- singleton key: no occurrence of the pattern, since the key has no space
      have hs := hwf s (by simp)
      have h1 : replaceList (a ++ ' ' :: b) (a ++ b) (s ++ [])
          = s ++ replaceList (a ++ ' ' :: b) (a ++ b) [] := by
        apply replaceList_append_no_match
        intro i hi hp
        have hsp : ' ' ∈ (s ++ [] : Str).drop i := hp.subset (by simp)
        have hmem : ' ' ∈ s := by
          have := (List.drop_suffix i (s ++ [])).subset hsp
          simpa using this
        exact hs.2 hmem
      show replaceList (a ++ ' ' :: b) (a ++ b) s = joinSpace (mergeAdjacent a b [s])
      have h2 : joinSpace (mergeAdjacent a b [s]) = s := rfl
      rw [h2]
      simpa [replaceList_nil] using h1
    by_cases hg : s = a ∧ t = b
    · obtain ⟨hsa, htb⟩ := hg
      subst hsa
      subst htb
      cases rest with
      | nil =>
        have hj : joinSpace [s, t] = s ++ ' ' :: t := by
          rw [joinSpace_cons s (by simp)]
          rfl
        have hm : mergeAdjacent s t [s, t] = [s ++ t] := by
          simp [mergeAdjacent]
        rw [hj, hm, replaceList_of_prefix (s ++ t) (by simp)
          (List.prefix_refl _) (by simp), List.drop_length, replaceList_nil]
        simp [joinSpace]
      | cons t' rest' =>
        have hj : joinSpace (s :: t :: t' :: rest')
            = (s ++ ' ' :: t) ++ ' ' :: joinSpace (t' :: rest') := by
          rw [joinSpace_cons s (by simp), joinSpace_cons t (by simp)]
          simp
        rw [hj, replaceList_of_prefix (s ++ t) (by simp) ⟨_, rfl⟩ (by simp),
          List.drop_left,
          replaceList_cons_not_prefix (s ++ t) (not_prefix_space_head ha ha' _),
          ih (t' :: rest') (by simp at hlen ⊢; omega)
            (fun s' hs' => hwf s' (List.mem_cons_of_mem _ (List.mem_cons_of_mem _ hs')))
            (fun p hp => hal p (adjPairs_tail_sub p (adjPairs_tail_sub p hp)))]
        have hm : mergeAdjacent s t (s :: t :: t' :: rest')
            = (s ++ t) :: mergeAdjacent s t (t' :: rest') := by
          simp [mergeAdjacent]
        rw [hm, joinSpace_cons _ (mergeAdjacent_ne_nil s t t' rest')]
    · have hj : joinSpace (s :: t :: rest) = (s ++ [' ']) ++ joinSpace (t :: rest) := by
        rw [joinSpace_cons s (by simp)]
        simp
      have hs := hwf s (by simp)
      have ht := hwf t (by simp)
      have hnm : ∀ i, i < (s ++ [' '] : Str).length →
          ¬ (a ++ ' ' :: b) <+: (((s ++ [' ']) ++ joinSpace (t :: rest)).drop i) := by
        intro i hi hp
        have hil : i ≤ s.length := by
          simp only [List.length_append, List.length_cons, List.length_nil] at hi
          omega
        rw [show ((s ++ [' ']) ++ joinSpace (t :: rest) : Str)
            = s ++ ' ' :: joinSpace (t :: rest) by simp] at hp
        rcases Nat.lt_or_ge i s.length with hlt | hge
        · rw [List.drop_append_of_le_length (le_of_lt hlt)] at hp
          obtain ⟨hae, hbp⟩ := prefix_space_split ha'
            (fun hm => hs.2 ((List.drop_suffix i s).subset hm)) hp
          have hsuf : a <:+ s := hae ▸ List.drop_suffix i s
          have hbt : b <+: t := by
            cases rest with
            | nil => simpa [joinSpace] using hbp
            | cons t2 r2 =>
              rw [joinSpace_cons t (by simp)] at hbp
              exact prefix_through_space _ hb' ht.2 hbp
          exact hg (hal (s, t) (by rw [adjPairs_cons_cons]; simp) hsuf hbt)
        · have hieq : i = s.length := le_antisymm hil hge
          subst hieq
          rw [List.drop_left] at hp
          exact not_prefix_space_head ha ha' _ hp
      rw [hj, replaceList_append_no_match _ _ _ _ hnm,
        ih (t :: rest) (by simp at hlen ⊢; omega)
          (fun s' hs' => hwf s' (List.mem_cons_of_mem _ hs'))
          (fun p hp => hal p (adjPairs_tail_sub p hp))]
      have hm : mergeAdjacent a b (s :: t :: rest)
          = s :: mergeAdjacent a b (t :: rest) := by
        simp [mergeAdjacent, hg]
      rw [hm, joinSpace_cons _ (mergeAdjacent_ne_nil a b t rest)]
      simp

/-- C2 counterexample: `merge_symbols` performs a plain substring
replacement, which can rewrite text that is *not* an adjacent occurrence of
the selected pair.  For the key "ab c" (symbols "ab" and "c") and the pair
(b, c), the symbol-level pair (b, c) does not occur, yet the key is rewritten
to "abc" — the symbol "ab" is altered. -/
theorem mergeSymbols_offBoundary_cx :
    (merge_symbols (strL "b", strL "c") [(strL "ab c", 1)] []).1
      = [(strL "abc", 1)]
    ∧ (strL "b", strL "c") ∉ adjPairs (splitSpace (strL "ab c")) := by
  refine ⟨by decide, by decide⟩

/-- C2 (amended): `merge_symbols` replaces, in each key, the leftmost
non-overlapping occurrences of the *substring* "a b"; this coincides with
replacing exactly the adjacent symbol-level (a, b) occurrences — leaving
every other symbol untouched and carrying each key's frequency unchanged —
whenever the key satisfies the alignment condition that a only reads as a
suffix of an adjacent symbol u with b a prefix of the next symbol v when
(u, v) = (a, b).  (The condition holds in particular for any key over
single-character symbols; without it the replacement can cross symbol
boundaries, see `mergeSymbols_offBoundary_cx`.) -/
theorem mergeSymbols_boundary_aligned (a b : Str) (tf : List (Str × Nat))
    (vocab : List Str) (ha : a ≠ []) (ha' : ' ' ∉ a) (hb' : ' ' ∉ b)
    (hkeys : ∀ e ∈ tf, joinSpace (splitSpace e.1) = e.1
      ∧ alignCond a b (splitSpace e.1))
    (hnd : (tf.map (fun e => joinSpace (mergeAdjacent a b (splitSpace e.1)))).Nodup) :
    (merge_symbols (a, b) tf vocab).1
      = tf.map (fun e => (joinSpace (mergeAdjacent a b (splitSpace e.1)), e.2)) := by
  have hrep : ∀ e ∈ tf, replaceList (a ++ ' ' :: b) (a ++ b) e.1
      = joinSpace (mergeAdjacent a b (splitSpace e.1)) := by
    intro e he
    obtain ⟨hrt, hal⟩ := hkeys e he
    conv_lhs => rw [← hrt]
    exact replaceList_mergeAdjacent a b ha ha' hb' (splitSpace e.1).length
      (splitSpace e.1) (le_refl _) (splitSpace_wf e.1) hal
  have hmapeq : tf.map (fun e => replaceList (a ++ ' ' :: b) (a ++ b) e.1)
      = tf.map (fun e => joinSpace (mergeAdjacent a b (splitSpace e.1))) :=
    List.map_congr_left hrep
  have h := foldl_dictInsert_eq_append
    (fun t => replaceList (a ++ ' ' :: b) (a ++ b) t) tf []
    (hmapeq ▸ hnd) (by simp)
  simp only [merge_symbols] at *
  rw [h, List.nil_append]
  exact List.map_congr_left (fun e he => by rw [hrep e he])

/-- Witness for `mergeSymbols_boundary_aligned`: the notebook's first merge
(t, a) on the freshly initialized demo table (all keys are single-character
symbol sequences, so the alignment condition holds) acts exactly as the
symbol-level merge. -/
theorem mergeSymbols_boundary_aligned_witness :
    (merge_symbols (strL "t", strL "a") (initTokenFreqs raw_token_freqs) symbols0).1
      = (initTokenFreqs raw_token_freqs).map
          (fun e => (joinSpace (mergeAdjacent (strL "t") (strL "a") (splitSpace e.1)), e.2)) :=
  mergeSymbols_boundary_aligned (strL "t") (strL "a")
    (initTokenFreqs raw_token_freqs) symbols0
    (by decide) (by decide) (by decide) (by decide) (by decide)

end BPE
